/-
Verification of the two model-definition files of the
Keep_Talking_and_Nobody_Explodes repository.

The repository contains two near-identical PyTorch files:
  * inside_agent.py                       (plain variant, no batch normalization)
  * src/supervised-wire/inside_agent.py   (batch-normalized variant)
each defining `InsideAgentForInitState` (a state encoder) and
`InsideAgentForAction` (an action decoder).

Shallow embedding conventions:
  * tensors are lists of rationals (`List ℚ`, `List (List ℚ)`, ...); the
    numerical claims checked here are structural (shapes, independence,
    purity, determinism) and do not depend on floating-point rounding;
  * the floating-point square root used inside batch normalization is
    abstracted as an explicit function parameter `sq : ℚ → ℚ` threaded
    through the normalized forward passes — no claim depends on its values;
  * fallible library operations are modelled with `Option`:
    `torch.nn.functional.one_hot` raises a RuntimeError on class values that
    are negative or ≥ `num_classes`, and `BatchNorm1d` raises in training
    mode when the batch has at most one element; both are modelled as `none`;
  * the batch-normalized modules own mutable running statistics, so their
    forward passes are modelled in state-passing style, returning the
    (possibly updated) module together with the output.
-/

import Mathlib

/-- Scalar `F.relu`: `max(x, 0)`. -/
def relu (x : ℚ) : ℚ := max x 0

/-- Elementwise `F.relu` on a vector. -/
def reluVec (v : List ℚ) : List ℚ := v.map relu

/-- Dot product of two vectors (truncating at the shorter one; all uses are
at equal lengths). -/
def dot (w x : List ℚ) : ℚ := (List.zipWith (fun a b => a * b) w x).sum

/-- Model of `torch.nn.Linear`: a weight matrix (one row per output feature)
and a bias vector. -/
structure Linear where
  weight : List (List ℚ)
  bias : List ℚ
deriving DecidableEq

/-- The affine map computed by `nn.Linear`: output feature `i` is
`dot (weight[i], x) + bias[i]`. -/
def Linear.apply (l : Linear) (x : List ℚ) : List ℚ :=
  List.zipWith (fun w b => dot w x + b) l.weight l.bias

/-- Shape discipline guaranteed by `nn.Linear(inF, outF)`: `outF` weight
rows of length `inF` and an `outF`-long bias. -/
def Linear.wf (l : Linear) (inF outF : Nat) : Prop :=
  l.weight.length = outF ∧ (∀ w ∈ l.weight, w.length = inF) ∧ l.bias.length = outF

instance (l : Linear) (inF outF : Nat) : Decidable (l.wf inF outF) := by
  unfold Linear.wf; infer_instance

/-- Model of `torch.nn.functional.one_hot` on a single class value: a vector with a 1
at index `v` and 0 elsewhere; raises (here: `none`) when `v` is negative or
not below `numClasses`. -/
def one_hot (numClasses : Nat) (v : ℤ) : Option (List ℚ) :=
  if 0 ≤ v ∧ v < (numClasses : ℤ) then
    some ((List.range numClasses).map fun (j : Nat) => if (j : ℤ) = v then 1 else 0)
  else
    none

/-- Elementwise application of a fallible function over a list; `none` as
soon as any element fails (how an elementwise torch op raises on a tensor). -/
def mapOpt (f : α → Option β) : List α → Option (List β)
  | [] => some []
  | a :: as =>
    match f a, mapOpt f as with
    | some b, some bs => some (b :: bs)
    | _, _ => none

/-- One row of the encoding step of `InsideAgentForInitState.forward`:
one-hot-encode each digit with width `nStates` and concatenate the blocks in
digit order (`F.one_hot(state, num_classes).reshape(B, -1)` restricted to one
batch row). -/
def encodeRow (nStates : Nat) (row : List ℤ) : Option (List ℚ) :=
  (mapOpt (one_hot nStates) row).map List.flatten

/-- The full encoding step of `InsideAgentForInitState.forward` on a batch:
`F.one_hot(state, num_classes=nStates).reshape(state.shape[0], -1).float()`. -/
def encodeBatch (nStates : Nat) (batch : List (List ℤ)) : Option (List (List ℚ)) :=
  mapOpt (encodeRow nStates) batch

/-- Feature-wise sum of the rows of a batch (used by batch normalization). -/
def vecSum : List (List ℚ) → List ℚ
  | [] => []
  | [x] => x
  | x :: rest => List.zipWith (fun a b => a + b) x (vecSum rest)

/-- Model of `tensor.reshape(B, nd, -1)` restricted to one batch row: split a flat
row into `nd` consecutive chunks of length `row.length / nd`. -/
def splitRow (nd : Nat) (l : List ℚ) : List (List ℚ) :=
  (List.range nd).map fun i => ((l.drop (i * (l.length / nd))).take (l.length / nd))

/-- Dummy layer used as the (never reached) default of list indexing. -/
def dummyLinear : Linear := ⟨[], []⟩

namespace InsideAgent

/-- Class `InsideAgentForInitState` of `inside_agent.py` (plain variant):
three linear layers; `n_digits`, `n_states_per_digit`, `vocab_size` as set by
`__init__`. -/
structure InsideAgentForInitState where
  n_digits : Nat
  n_states_per_digit : Nat
  vocab_size : Nat
  fc1 : Linear
  fc2 : Linear
  fc3 : Linear
deriving DecidableEq

/-- Shapes produced by `__init__(n_digits, n_states_per_digit, vocab_size, latent)`. -/
def InsideAgentForInitState.wf (m : InsideAgentForInitState) (latent : Nat) : Prop :=
  m.fc1.wf (m.n_states_per_digit * m.n_digits) latent ∧
  m.fc2.wf latent latent ∧
  m.fc3.wf latent m.vocab_size

instance (m : InsideAgentForInitState) (latent : Nat) : Decidable (m.wf latent) := by
  unfold InsideAgentForInitState.wf; infer_instance

/-- Method `InsideAgentForInitState.forward`:
one-hot encode and flatten, then `fc3 (relu (fc2 (relu (fc1 _))))` per batch
row; `none` models the RuntimeError `F.one_hot` raises on out-of-range input. -/
def InsideAgentForInitState.forward (m : InsideAgentForInitState)
    (state : List (List ℤ)) : Option (List (List ℚ)) :=
  (encodeBatch m.n_states_per_digit state).map fun enc =>
    enc.map fun row =>
      m.fc3.apply (reluVec (m.fc2.apply (reluVec (m.fc1.apply row))))

/-- Class `InsideAgentForAction` of `inside_agent.py` (plain variant): a shared
trunk `fc1`, `fc2` and per-digit head layers `fc3[i]`, `fc4[i]` held in plain
Python lists of length `n_digits`. -/
structure InsideAgentForAction where
  n_digits : Nat
  n_states_per_digit : Nat
  vocab_size : Nat
  fc1 : Linear
  fc2 : Linear
  fc3 : List Linear
  fc4 : List Linear
deriving DecidableEq

/-- Shapes produced by `__init__`: heads `fc3[i] : latent → latent/2`,
`fc4[i] : latent/2 → n_states_per_digit`, one pair per digit. -/
def InsideAgentForAction.wf (m : InsideAgentForAction) (latent : Nat) : Prop :=
  m.fc1.wf m.vocab_size latent ∧
  m.fc2.wf latent latent ∧
  m.fc3.length = m.n_digits ∧
  m.fc4.length = m.n_digits ∧
  (∀ l ∈ m.fc3, l.wf latent (latent / 2)) ∧
  (∀ l ∈ m.fc4, l.wf (latent / 2) m.n_states_per_digit)

instance (m : InsideAgentForAction) (latent : Nat) : Decidable (m.wf latent) := by
  unfold InsideAgentForAction.wf; infer_instance

/-- Method `InsideAgentForAction.forward`: shared trunk `relu (fc2 (relu (fc1 x)))`,
then for each digit `i` in `range n_digits` the slice
`output[:, i, :] = fc4[i](relu(fc3[i](trunk)))`. -/
def InsideAgentForAction.forward (m : InsideAgentForAction)
    (x : List (List ℚ)) : List (List (List ℚ)) :=
  x.map fun row =>
    let h := reluVec (m.fc2.apply (reluVec (m.fc1.apply row)))
    (List.range m.n_digits).map fun i =>
      (m.fc4.getD i dummyLinear).apply (reluVec ((m.fc3.getD i dummyLinear).apply h))

end InsideAgent

namespace SupervisedWire

/-- Model of `torch.nn.BatchNorm1d(n)` with its learnable affine parameters, running
statistics and configuration (defaults: `momentum = 0.1`, `eps = 1e-5`). -/
structure BatchNorm1d where
  gamma : List ℚ
  beta : List ℚ
  running_mean : List ℚ
  running_var : List ℚ
  momentum : ℚ
  eps : ℚ
  num_batches_tracked : Nat
deriving DecidableEq

/-- Shape discipline of `nn.BatchNorm1d(n)`: all four vectors have length `n`. -/
def BatchNorm1d.wf (bn : BatchNorm1d) (n : Nat) : Prop :=
  bn.gamma.length = n ∧ bn.beta.length = n ∧
  bn.running_mean.length = n ∧ bn.running_var.length = n

instance (bn : BatchNorm1d) (n : Nat) : Decidable (bn.wf n) := by
  unfold BatchNorm1d.wf; infer_instance

/-- Featurewise mean of a batch (the `E[x]` of training-mode batch
normalization). -/
def batchMean (xs : List (List ℚ)) : List ℚ :=
  (vecSum xs).map fun s => s / (xs.length : ℚ)

/-- The batch with the featurewise batch mean subtracted from every row. -/
def centeredRows (xs : List (List ℚ)) : List (List ℚ) :=
  xs.map fun r => List.zipWith (fun a b => a - b) r (batchMean xs)

/-- Featurewise sum of squared deviations from the batch mean. -/
def sqDevSum (xs : List (List ℚ)) : List ℚ :=
  vecSum ((centeredRows xs).map (List.map fun c => c * c))

/-- Biased featurewise batch variance (denominator `N`), used by training-mode
batch normalization to normalize the batch. -/
def biasedVar (xs : List (List ℚ)) : List ℚ :=
  (sqDevSum xs).map fun s => s / (xs.length : ℚ)

/-- Unbiased featurewise batch variance (denominator `N - 1`), used to update
the running variance. -/
def unbiasedVar (xs : List (List ℚ)) : List ℚ :=
  (sqDevSum xs).map fun s => s / ((xs.length : ℚ) - 1)

/-- Affine normalization of one centered row against a variance vector:
`gamma * c / sq (var + eps) + beta` featurewise, with `sq` the backend
square root. -/
def BatchNorm1d.normalizeRow (bn : BatchNorm1d) (sq : ℚ → ℚ)
    (varv : List ℚ) (c : List ℚ) : List ℚ :=
  List.zipWith (fun y b => y + b)
    (List.zipWith (fun g d => g * d) bn.gamma
      (List.zipWith (fun cj v => cj / sq (v + bn.eps)) c varv))
    bn.beta

/-- Evaluation-mode batch normalization of one row:
`gamma * (x - running_mean) / sq (running_var + eps) + beta` featurewise. -/
def BatchNorm1d.evalRow (bn : BatchNorm1d) (sq : ℚ → ℚ) (r : List ℚ) : List ℚ :=
  bn.normalizeRow sq bn.running_var (List.zipWith (fun a b => a - b) r bn.running_mean)

/-- Forward pass of `BatchNorm1d` in state-passing style.  Training mode (raises —
`none` — on batches of fewer than two rows) normalizes with the biased batch
variance, and updates the running statistics with the exponential moving
average (unbiased variance) plus the batch counter.  Evaluation mode uses the
stored running statistics and leaves the module untouched. -/
def BatchNorm1d.forward (bn : BatchNorm1d) (sq : ℚ → ℚ) (training : Bool)
    (xs : List (List ℚ)) : Option (List (List ℚ) × BatchNorm1d) :=
  if training then
    if xs.length ≤ 1 then none
    else
      some ((centeredRows xs).map (bn.normalizeRow sq (biasedVar xs)),
        ⟨bn.gamma, bn.beta,
         List.zipWith (fun rm mj => (1 - bn.momentum) * rm + bn.momentum * mj)
           bn.running_mean (batchMean xs),
         List.zipWith (fun rv vj => (1 - bn.momentum) * rv + bn.momentum * vj)
           bn.running_var (unbiasedVar xs),
         bn.momentum, bn.eps, bn.num_batches_tracked + 1⟩)
  else
    some (xs.map (bn.evalRow sq), bn)

/-- Class `InsideAgentForInitState` of `src/supervised-wire/inside_agent.py`
(batch-normalized variant): three linear layers interleaved with two batch
normalizations. -/
structure InsideAgentForInitState where
  n_digits : Nat
  n_states_per_digit : Nat
  vocab_size : Nat
  fc1 : Linear
  bn1 : BatchNorm1d
  fc2 : Linear
  bn2 : BatchNorm1d
  fc3 : Linear
deriving DecidableEq

/-- Shapes produced by `__init__(n_digits, n_states_per_digit, vocab_size, latent)`. -/
def InsideAgentForInitState.wf (m : InsideAgentForInitState) (latent : Nat) : Prop :=
  m.fc1.wf (m.n_states_per_digit * m.n_digits) latent ∧
  m.bn1.wf latent ∧
  m.fc2.wf latent latent ∧
  m.bn2.wf latent ∧
  m.fc3.wf latent m.vocab_size

instance (m : InsideAgentForInitState) (latent : Nat) : Decidable (m.wf latent) := by
  unfold InsideAgentForInitState.wf; infer_instance

/-- Method `InsideAgentForInitState.forward` (normalized variant): one-hot encode
and flatten, then `fc3 (relu (bn2 (fc2 (relu (bn1 (fc1 _))))))`; the batch
normalizations may update their running statistics, so the new module is
returned alongside the output. -/
def InsideAgentForInitState.forward (m : InsideAgentForInitState)
    (sq : ℚ → ℚ) (training : Bool) (state : List (List ℤ)) :
    Option (List (List ℚ) × InsideAgentForInitState) := do
  let enc ← encodeBatch m.n_states_per_digit state
  let (b1, bn1a) ← m.bn1.forward sq training (enc.map m.fc1.apply)
  let (b2, bn2a) ← m.bn2.forward sq training ((b1.map reluVec).map m.fc2.apply)
  some ((b2.map reluVec).map m.fc3.apply,
    ⟨m.n_digits, m.n_states_per_digit, m.vocab_size, m.fc1, bn1a, m.fc2, bn2a, m.fc3⟩)

/-- Class `InsideAgentForAction` of `src/supervised-wire/inside_agent.py`
(batch-normalized variant): trunk `fc1`, `bn1`, `fc2`, `bn2` and a single
wide output layer `fc3 : latent → n_states_per_digit * n_digits`. -/
structure InsideAgentForAction where
  n_digits : Nat
  n_states_per_digit : Nat
  vocab_size : Nat
  fc1 : Linear
  bn1 : BatchNorm1d
  fc2 : Linear
  bn2 : BatchNorm1d
  fc3 : Linear
deriving DecidableEq

/-- Shapes produced by `__init__`. -/
def InsideAgentForAction.wf (m : InsideAgentForAction) (latent : Nat) : Prop :=
  m.fc1.wf m.vocab_size latent ∧
  m.bn1.wf latent ∧
  m.fc2.wf latent latent ∧
  m.bn2.wf latent ∧
  m.fc3.wf latent (m.n_states_per_digit * m.n_digits)

instance (m : InsideAgentForAction) (latent : Nat) : Decidable (m.wf latent) := by
  unfold InsideAgentForAction.wf; infer_instance

/-- The shared trunk of the normalized `InsideAgentForAction.forward`:
`relu (bn2 (fc2 (relu (bn1 (fc1 x)))))`, returning the latent batch together
with the two (possibly updated) batch normalizations. -/
def InsideAgentForAction.trunk (m : InsideAgentForAction) (sq : ℚ → ℚ)
    (training : Bool) (x : List (List ℚ)) :
    Option (List (List ℚ) × BatchNorm1d × BatchNorm1d) := do
  let (b1, bn1a) ← m.bn1.forward sq training (x.map m.fc1.apply)
  let (b2, bn2a) ← m.bn2.forward sq training ((b1.map reluVec).map m.fc2.apply)
  some ((b2.map reluVec), bn1a, bn2a)

/-- Method `InsideAgentForAction.forward` (normalized variant): the trunk latent fed
through the single wide layer `fc3`, then
`reshape(x.shape[0], n_digits, -1)`. -/
def InsideAgentForAction.forward (m : InsideAgentForAction) (sq : ℚ → ℚ)
    (training : Bool) (x : List (List ℚ)) :
    Option (List (List (List ℚ)) × InsideAgentForAction) := do
  let (lat, bn1a, bn2a) ← m.trunk sq training x
  some (lat.map fun r => splitRow m.n_digits (m.fc3.apply r),
    ⟨m.n_digits, m.n_states_per_digit, m.vocab_size, m.fc1, bn1a, m.fc2, bn2a, m.fc3⟩)

end SupervisedWire

/-! Concrete module instances used to exercise the theorems on explicit
inputs.  `zeroLinear` and `onesBiasLinear` are layers with the shapes
`nn.Linear(inF, outF)` would allocate. -/

/-- A linear layer with all-zero weights and biases. -/
def zeroLinear (inF outF : Nat) : Linear :=
  ⟨List.replicate outF (List.replicate inF 0), List.replicate outF 0⟩

/-- A linear layer with all-zero weights and all-one biases. -/
def onesBiasLinear (inF outF : Nat) : Linear :=
  ⟨List.replicate outF (List.replicate inF 0), List.replicate outF 1⟩

/-- A concrete choice for the abstract backend square root. -/
def sqId : ℚ → ℚ := fun q => q

/-- A freshly initialized `nn.BatchNorm1d(1)`: weight 1, bias 0, running
mean 0, running variance 1, momentum 0.1, eps 1e-5. -/
def bnOne : SupervisedWire.BatchNorm1d := ⟨[1], [0], [0], [1], 1 / 10, 1 / 100000, 0⟩

/-- Plain encoder, `n_digits = 2`, `n_states_per_digit = 3`, `vocab_size = 1`,
`latent = 1`. -/
def encP : InsideAgent.InsideAgentForInitState :=
  ⟨2, 3, 1, zeroLinear 6 1, zeroLinear 1 1, zeroLinear 1 1⟩

/-- Plain decoder, `n_digits = 2`, `n_states_per_digit = 3`, `vocab_size = 1`,
`latent = 2`. -/
def decP : InsideAgent.InsideAgentForAction :=
  ⟨2, 3, 1, zeroLinear 1 2, zeroLinear 2 2,
   [zeroLinear 2 1, zeroLinear 2 1], [zeroLinear 1 3, zeroLinear 1 3]⟩

/-- Variant of `decP` with the parameters of digit 1's head perturbed (nonzero biases);
digit 0's head is untouched. -/
def decPalt : InsideAgent.InsideAgentForAction :=
  ⟨2, 3, 1, zeroLinear 1 2, zeroLinear 2 2,
   [zeroLinear 2 1, onesBiasLinear 2 1], [zeroLinear 1 3, onesBiasLinear 1 3]⟩

/-- Normalized encoder, `n_digits = 1`, `n_states_per_digit = 2`,
`vocab_size = 1`, `latent = 1`. -/
def encN : SupervisedWire.InsideAgentForInitState :=
  ⟨1, 2, 1, zeroLinear 2 1, bnOne, zeroLinear 1 1, bnOne, zeroLinear 1 1⟩

/-- Normalized decoder, `n_digits = 2`, `n_states_per_digit = 3`,
`vocab_size = 1`, `latent = 1`. -/
def decN : SupervisedWire.InsideAgentForAction :=
  ⟨2, 3, 1, zeroLinear 1 1, bnOne, zeroLinear 1 1, bnOne, zeroLinear 1 6⟩

/-- Plain encoder at the boundary configuration
`n_digits = 1`, `n_states_per_digit = 1`, `vocab_size = 1`, `latent = 1`. -/
def encP1 : InsideAgent.InsideAgentForInitState :=
  ⟨1, 1, 1, zeroLinear 1 1, zeroLinear 1 1, zeroLinear 1 1⟩

/-- Plain decoder at the boundary configuration, `latent = 2`. -/
def decP1 : InsideAgent.InsideAgentForAction :=
  ⟨1, 1, 1, zeroLinear 1 2, zeroLinear 2 2, [zeroLinear 2 1], [zeroLinear 1 1]⟩

/-- Normalized encoder at the boundary configuration, `latent = 1`. -/
def encN1 : SupervisedWire.InsideAgentForInitState :=
  ⟨1, 1, 1, zeroLinear 1 1, bnOne, zeroLinear 1 1, bnOne, zeroLinear 1 1⟩

/-- Normalized decoder at the boundary configuration, `latent = 1`. -/
def decN1 : SupervisedWire.InsideAgentForAction :=
  ⟨1, 1, 1, zeroLinear 1 1, bnOne, zeroLinear 1 1, bnOne, zeroLinear 1 1⟩

/-! Helper lemmas about the embedding's building blocks. -/

theorem length_linear_apply {l : Linear} (x : List ℚ) {inF outF : Nat}
    (h : l.wf inF outF) : (l.apply x).length = outF := by
  rcases h with ⟨h1, _, h3⟩
  simp [Linear.apply, h1, h3]

theorem length_reluVec (v : List ℚ) : (reluVec v).length = v.length := by
  simp [reluVec]

theorem mapOpt_length {f : α → Option β} {l : List α} {r : List β}
    (h : mapOpt f l = some r) : r.length = l.length := by
  induction l generalizing r with
  | nil =>
    simp only [mapOpt, Option.some.injEq] at h
    simp [← h]
  | cons a as ih =>
    unfold mapOpt at h
    cases hfa : f a with
    | none => rw [hfa] at h; simp at h
    | some b =>
      rw [hfa] at h
      cases hrest : mapOpt f as with
      | none => rw [hrest] at h; simp at h
      | some bs =>
        rw [hrest] at h
        simp only [Option.some.injEq] at h
        subst h
        simp [ih hrest]

theorem mapOpt_getElem? {f : α → Option β} {l : List α} {r : List β}
    (h : mapOpt f l = some r) (i : Nat) : r[i]? = l[i]?.bind f := by
  induction l generalizing r i with
  | nil =>
    simp only [mapOpt, Option.some.injEq] at h
    simp [← h]
  | cons a as ih =>
    unfold mapOpt at h
    cases hfa : f a with
    | none => rw [hfa] at h; simp at h
    | some b =>
      rw [hfa] at h
      cases hrest : mapOpt f as with
      | none => rw [hrest] at h; simp at h
      | some bs =>
        rw [hrest] at h
        simp only [Option.some.injEq] at h
        subst h
        cases i with
        | zero => simp [hfa]
        | succ i => simp [ih hrest i]

theorem mapOpt_isSome {f : α → Option β} {l : List α}
    (h : ∀ a ∈ l, ∃ b, f a = some b) : ∃ r, mapOpt f l = some r := by
  induction l with
  | nil => exact ⟨[], rfl⟩
  | cons a as ih =>
    obtain ⟨b, hb⟩ := h a (List.mem_cons_self a as)
    obtain ⟨bs, hbs⟩ := ih fun x hx => h x (List.mem_cons_of_mem a hx)
    exact ⟨b :: bs, by unfold mapOpt; rw [hb, hbs]⟩

theorem mapOpt_eq_none {f : α → Option β} {l : List α} {a : α}
    (ha : a ∈ l) (hfa : f a = none) : mapOpt f l = none := by
  induction l with
  | nil => simp at ha
  | cons x xs ih =>
    rcases List.mem_cons.mp ha with h | h
    · subst h
      unfold mapOpt
      rw [hfa]
    · unfold mapOpt
      rw [ih h]
      cases f x <;> rfl

theorem mapOpt_mem {f : α → Option β} {l : List α} {r : List β}
    (h : mapOpt f l = some r) : ∀ b ∈ r, ∃ a ∈ l, f a = some b := by
  induction l generalizing r with
  | nil =>
    simp only [mapOpt, Option.some.injEq] at h
    simp [← h]
  | cons a as ih =>
    unfold mapOpt at h
    cases hfa : f a with
    | none => rw [hfa] at h; simp at h
    | some b =>
      rw [hfa] at h
      cases hrest : mapOpt f as with
      | none => rw [hrest] at h; simp at h
      | some bs =>
        rw [hrest] at h
        simp only [Option.some.injEq] at h
        subst h
        intro c hc
        rcases List.mem_cons.mp hc with h | h
        · exact ⟨a, List.mem_cons_self a as, by rw [hfa, h]⟩
        · obtain ⟨x, hx, hfx⟩ := ih hrest c h
          exact ⟨x, List.mem_cons_of_mem a hx, hfx⟩

theorem one_hot_valid {s : Nat} {v : ℤ} (h0 : 0 ≤ v) (h1 : v < (s : ℤ)) :
    one_hot s v = some ((List.range s).map fun (j : Nat) => if (j : ℤ) = v then 1 else 0) := by
  simp [one_hot, h0, h1]

theorem one_hot_length {s : Nat} {v : ℤ} {h : List ℚ}
    (hh : one_hot s v = some h) : h.length = s := by
  unfold one_hot at hh
  split at hh
  · simp only [Option.some.injEq] at hh
    rw [← hh, List.length_map, List.length_range]
  · simp at hh

theorem flatten_length_const {bs : List (List ℚ)} {s : Nat}
    (h : ∀ b ∈ bs, b.length = s) : bs.flatten.length = bs.length * s := by
  induction bs with
  | nil => simp
  | cons b bs ih =>
    simp only [List.flatten_cons, List.length_append, List.length_cons]
    rw [h b (List.mem_cons_self b bs), ih fun x hx => h x (List.mem_cons_of_mem b hx)]
    ring

theorem flatten_getElem? {bs : List (List ℚ)} {s : Nat}
    (hbs : ∀ b ∈ bs, b.length = s) {j : Nat} (hj : j < s) (i : Nat) :
    bs.flatten[i * s + j]? = bs[i]?.bind fun b => b[j]? := by
  induction bs generalizing i with
  | nil => simp
  | cons b bs ih =>
    have hb : b.length = s := hbs b (List.mem_cons_self b bs)
    cases i with
    | zero =>
      simp only [Nat.zero_mul, Nat.zero_add, List.flatten_cons]
      rw [List.getElem?_append_left (by rw [hb]; exact hj)]
      simp
    | succ i =>
      have harith : (i + 1) * s + j = b.length + (i * s + j) := by rw [hb]; ring
      rw [List.flatten_cons, harith, List.getElem?_append_right (Nat.le_add_right _ _)]
      simp only [Nat.add_sub_cancel_left]
      rw [ih (fun x hx => hbs x (List.mem_cons_of_mem b hx)) i]
      simp

theorem encodeRow_spec {s : Nat} {row : List ℤ}
    (h : ∀ v ∈ row, 0 ≤ v ∧ v < (s : ℤ)) :
    ∃ e, encodeRow s row = some e ∧ e.length = row.length * s ∧
      ∀ i < row.length, ∀ j < s,
        e.getD (i * s + j) 0 = if row.getD i 0 = (j : ℤ) then 1 else 0 := by
  obtain ⟨bs, hbs⟩ := mapOpt_isSome (f := one_hot s) (l := row)
    (fun v hv => ⟨_, one_hot_valid (h v hv).1 (h v hv).2⟩)
  have hlen : ∀ b ∈ bs, b.length = s := fun b hb => by
    obtain ⟨a, _, hfa⟩ := mapOpt_mem hbs b hb
    exact one_hot_length hfa
  refine ⟨bs.flatten, by rw [encodeRow, hbs]; rfl, ?_, ?_⟩
  · rw [flatten_length_const hlen, mapOpt_length hbs]
  · intro i hi j hj
    have hrowi : row[i]? = some (row.getD i 0) := by
      rw [List.getD_eq_getElem?_getD]
      cases hri : row[i]? with
      | none => exact absurd (List.getElem?_eq_none_iff.mp hri) (by omega)
      | some a => rfl
    have hv := h (row.getD i 0) (List.getElem?_mem hrowi)
    rw [List.getD_eq_getElem?_getD, flatten_getElem? hlen hj i,
      mapOpt_getElem? hbs i, hrowi, Option.some_bind, one_hot_valid hv.1 hv.2,
      Option.some_bind, List.getElem?_map, List.getElem?_range hj]
    simp [eq_comm]

theorem encodeBatch_spec {s : Nat} {t : List (List ℤ)}
    (h : ∀ row ∈ t, ∀ v ∈ row, 0 ≤ v ∧ v < (s : ℤ)) :
    ∃ e, encodeBatch s t = some e ∧ e.length = t.length ∧
      ∀ b < t.length,
        (e.getD b []).length = (t.getD b []).length * s ∧
        ∀ i < (t.getD b []).length, ∀ j < s,
          (e.getD b []).getD (i * s + j) 0
            = if (t.getD b []).getD i 0 = (j : ℤ) then 1 else 0 := by
  obtain ⟨e, he⟩ := mapOpt_isSome (f := encodeRow s) (l := t)
    (fun row hrow => ((encodeRow_spec (h row hrow)).imp fun _ hh => hh.1))
  refine ⟨e, he, mapOpt_length he, ?_⟩
  intro b hb
  have hrowb : t[b]? = some (t.getD b []) := by
    rw [List.getD_eq_getElem?_getD]
    cases hrb : t[b]? with
    | none => exact absurd (List.getElem?_eq_none_iff.mp hrb) (by omega)
    | some a => rfl
  obtain ⟨er, her, herlen, herval⟩ :=
    encodeRow_spec (h (t.getD b []) (List.getElem?_mem hrowb))
  have heb : e.getD b [] = er := by
    rw [List.getD_eq_getElem?_getD, mapOpt_getElem? he b, hrowb, Option.some_bind, her]
    rfl
  rw [heb]
  exact ⟨herlen, herval⟩

theorem encodeRow_invalid {s : Nat} {row : List ℤ} {v : ℤ}
    (hv : v ∈ row) (hbad : ¬(0 ≤ v ∧ v < (s : ℤ))) : encodeRow s row = none := by
  rw [encodeRow, mapOpt_eq_none hv (by simp only [one_hot, if_neg hbad])]
  rfl

theorem encodeBatch_invalid {s : Nat} {batch : List (List ℤ)} {row : List ℤ} {v : ℤ}
    (hrow : row ∈ batch) (hv : v ∈ row) (hbad : ¬(0 ≤ v ∧ v < (s : ℤ))) :
    encodeBatch s batch = none :=
  mapOpt_eq_none hrow (encodeRow_invalid hv hbad)

theorem vecSum_length {xs : List (List ℚ)} {n : Nat} (hne : xs ≠ [])
    (h : ∀ r ∈ xs, r.length = n) : (vecSum xs).length = n := by
  induction xs with
  | nil => exact absurd rfl hne
  | cons x xs ih =>
    cases xs with
    | nil => simpa [vecSum] using h x (List.mem_cons_self x [])
    | cons y ys =>
      show (List.zipWith (fun a b => a + b) x (vecSum (y :: ys))).length = n
      rw [List.length_zipWith, h x (List.mem_cons_self _ _),
        ih (by simp) fun r hr => h r (List.mem_cons_of_mem _ hr)]
      exact Nat.min_self n

theorem splitRow_length (nd : Nat) (l : List ℚ) : (splitRow nd l).length = nd := by
  simp [splitRow]

theorem splitRow_chunk {nd s : Nat} {l : List ℚ} (hl : l.length = nd * s)
    {i : Nat} (hi : i < nd) :
    (splitRow nd l).getD i [] = (l.drop (i * s)).take s := by
  have hc : l.length / nd = s := by
    rw [hl, Nat.mul_div_cancel_left s (by omega : 0 < nd)]
  rw [splitRow, hc, List.getD_eq_getElem?_getD, List.getElem?_map,
    List.getElem?_range hi]
  rfl

theorem splitRow_chunk_length {nd s : Nat} {l : List ℚ} (hl : l.length = nd * s)
    {i : Nat} (hi : i < nd) : ((splitRow nd l).getD i []).length = s := by
  rw [splitRow_chunk hl hi, List.length_take, List.length_drop, hl]
  have h2 : (i + 1) * s = i * s + s := Nat.succ_mul i s
  have h3 : (i + 1) * s ≤ nd * s := Nat.mul_le_mul_right s hi
  omega

theorem splitRow_getD {nd s : Nat} {l : List ℚ} (hl : l.length = nd * s)
    {i j : Nat} (hi : i < nd) (hj : j < s) :
    ((splitRow nd l).getD i []).getD j 0 = l.getD (i * s + j) 0 := by
  rw [splitRow_chunk hl hi, List.getD_eq_getElem?_getD, List.getD_eq_getElem?_getD,
    List.getElem?_take, if_pos hj, List.getElem?_drop]

theorem bn_forward_eval (bn : SupervisedWire.BatchNorm1d) (sq : ℚ → ℚ)
    (xs : List (List ℚ)) :
    bn.forward sq false xs = some (xs.map (bn.evalRow sq), bn) := rfl

theorem bn_forward_train_small {bn : SupervisedWire.BatchNorm1d} {sq : ℚ → ℚ}
    {xs : List (List ℚ)} (h : xs.length ≤ 1) : bn.forward sq true xs = none := by
  simp [SupervisedWire.BatchNorm1d.forward, h]

theorem bn_normalizeRow_length {bn : SupervisedWire.BatchNorm1d} {n : Nat}
    (hbn : bn.wf n) (sq : ℚ → ℚ) {varv c : List ℚ}
    (hv : varv.length = n) (hc : c.length = n) :
    (bn.normalizeRow sq varv c).length = n := by
  obtain ⟨h1, h2, _, _⟩ := hbn
  simp [SupervisedWire.BatchNorm1d.normalizeRow, h1, h2, hv, hc]

theorem bn_evalRow_length {bn : SupervisedWire.BatchNorm1d} {n : Nat} (hbn : bn.wf n)
    (sq : ℚ → ℚ) (r : List ℚ) (hr : r.length = n) : (bn.evalRow sq r).length = n := by
  rw [SupervisedWire.BatchNorm1d.evalRow]
  exact bn_normalizeRow_length hbn sq hbn.2.2.2
    (by rw [List.length_zipWith, hr, hbn.2.2.1]; exact Nat.min_self n)

theorem bn_forward_some (bn : SupervisedWire.BatchNorm1d) (sq : ℚ → ℚ) {t : Bool}
    {xs : List (List ℚ)} (h : t = false ∨ 2 ≤ xs.length) :
    ∃ out bn2, bn.forward sq t xs = some (out, bn2) := by
  cases t with
  | false => exact ⟨_, _, bn_forward_eval bn sq xs⟩
  | true =>
    have h2 : 2 ≤ xs.length := by
      rcases h with h | h
      · simp at h
      · exact h
    exact ⟨_, _, by
      unfold SupervisedWire.BatchNorm1d.forward
      rw [if_pos rfl, if_neg (by omega : ¬xs.length ≤ 1)]⟩

theorem batchMean_length {xs : List (List ℚ)} {n : Nat} (hne : xs ≠ [])
    (h : ∀ r ∈ xs, r.length = n) : (SupervisedWire.batchMean xs).length = n := by
  rw [SupervisedWire.batchMean, List.length_map]
  exact vecSum_length hne h

theorem centeredRows_row_length {xs : List (List ℚ)} {n : Nat} (hne : xs ≠ [])
    (h : ∀ r ∈ xs, r.length = n) :
    ∀ c ∈ SupervisedWire.centeredRows xs, c.length = n := by
  intro c hc
  obtain ⟨r, hr, rfl⟩ := List.mem_map.mp hc
  rw [List.length_zipWith, h r hr, batchMean_length hne h]
  exact Nat.min_self n

theorem sqDevSum_length {xs : List (List ℚ)} {n : Nat} (hne : xs ≠ [])
    (h : ∀ r ∈ xs, r.length = n) : (SupervisedWire.sqDevSum xs).length = n := by
  rw [SupervisedWire.sqDevSum]
  apply vecSum_length
  · simp only [ne_eq, List.map_eq_nil_iff, SupervisedWire.centeredRows]
    simpa using hne
  · intro r hr
    obtain ⟨c, hc, rfl⟩ := List.mem_map.mp hr
    rw [List.length_map]
    exact centeredRows_row_length hne h c hc

theorem biasedVar_length {xs : List (List ℚ)} {n : Nat} (hne : xs ≠ [])
    (h : ∀ r ∈ xs, r.length = n) : (SupervisedWire.biasedVar xs).length = n := by
  rw [SupervisedWire.biasedVar, List.length_map]
  exact sqDevSum_length hne h

theorem bn_forward_shape {bn : SupervisedWire.BatchNorm1d} {n : Nat} {sq : ℚ → ℚ}
    {t : Bool} {xs out : List (List ℚ)} {bn2 : SupervisedWire.BatchNorm1d}
    (hbn : bn.wf n) (hxs : ∀ r ∈ xs, r.length = n)
    (h : bn.forward sq t xs = some (out, bn2)) :
    out.length = xs.length ∧ ∀ r ∈ out, r.length = n := by
  cases t with
  | false =>
    rw [bn_forward_eval] at h
    simp only [Option.some.injEq, Prod.mk.injEq] at h
    obtain ⟨ho, _⟩ := h
    subst ho
    refine ⟨by simp, ?_⟩
    intro r hr
    obtain ⟨r0, hr0, rfl⟩ := List.mem_map.mp hr
    exact bn_evalRow_length hbn sq r0 (hxs r0 hr0)
  | true =>
    by_cases hlen : xs.length ≤ 1
    · rw [bn_forward_train_small hlen] at h
      exact absurd h (by simp)
    · have hne : xs ≠ [] := by
        intro e
        rw [e] at hlen
        simp at hlen
      unfold SupervisedWire.BatchNorm1d.forward at h
      rw [if_pos rfl, if_neg hlen] at h
      simp only [Option.some.injEq, Prod.mk.injEq] at h
      obtain ⟨ho, _⟩ := h
      subst ho
      refine ⟨by simp [SupervisedWire.centeredRows], ?_⟩
      intro r hr
      obtain ⟨c, hc, rfl⟩ := List.mem_map.mp hr
      exact bn_normalizeRow_length hbn sq (biasedVar_length hne hxs)
        (centeredRows_row_length hne hxs c hc)

theorem getD_mem_of_lt {l : List α} {i : Nat} (h : i < l.length) (d : α) :
    l.getD i d ∈ l := by
  rw [List.getD_eq_getElem?_getD, List.getElem?_eq_getElem h]
  exact List.get_mem l i h

theorem normEnc_forward_eq {m : SupervisedWire.InsideAgentForInitState}
    {sq : ℚ → ℚ} {t : Bool} {state : List (List ℤ)} {enc : List (List ℚ)}
    (henc : encodeBatch m.n_states_per_digit state = some enc)
    {b1 : List (List ℚ)} {bn1a : SupervisedWire.BatchNorm1d}
    (h1 : m.bn1.forward sq t (enc.map m.fc1.apply) = some (b1, bn1a))
    {b2 : List (List ℚ)} {bn2a : SupervisedWire.BatchNorm1d}
    (h2 : m.bn2.forward sq t ((b1.map reluVec).map m.fc2.apply) = some (b2, bn2a)) :
    m.forward sq t state = some ((b2.map reluVec).map m.fc3.apply,
      ⟨m.n_digits, m.n_states_per_digit, m.vocab_size,
       m.fc1, bn1a, m.fc2, bn2a, m.fc3⟩) := by
  unfold SupervisedWire.InsideAgentForInitState.forward
  rw [henc]
  rw [List.map_map] at h2
  simp [h1, h2]

theorem plainEnc_shape {m : InsideAgent.InsideAgentForInitState} {latent : Nat}
    {state : List (List ℤ)} (hm : m.wf latent)
    (hstate : ∀ row ∈ state, ∀ v ∈ row, 0 ≤ v ∧ v < (m.n_states_per_digit : ℤ)) :
    ∃ out, m.forward state = some out ∧ out.length = state.length ∧
      ∀ r ∈ out, r.length = m.vocab_size := by
  obtain ⟨e, he, helen, _⟩ := encodeBatch_spec hstate
  refine ⟨_, by rw [InsideAgent.InsideAgentForInitState.forward, he]; rfl, ?_, ?_⟩
  · simp [helen]
  · intro r hr
    obtain ⟨row, _, rfl⟩ := List.mem_map.mp hr
    exact length_linear_apply _ hm.2.2

theorem normEnc_shape {m : SupervisedWire.InsideAgentForInitState} {latent : Nat}
    {sq : ℚ → ℚ} {t : Bool} {state : List (List ℤ)} (hm : m.wf latent)
    (hstate : ∀ row ∈ state, ∀ v ∈ row, 0 ≤ v ∧ v < (m.n_states_per_digit : ℤ))
    (hb : t = false ∨ 2 ≤ state.length) :
    ∃ out m2, m.forward sq t state = some (out, m2) ∧
      out.length = state.length ∧ ∀ r ∈ out, r.length = m.vocab_size := by
  obtain ⟨e, he, helen, _⟩ := encodeBatch_spec hstate
  have hb1 : t = false ∨ 2 ≤ (e.map m.fc1.apply).length := by
    simpa [helen] using hb
  obtain ⟨b1, bn1a, h1⟩ := bn_forward_some m.bn1 sq hb1
  have hsh1 := bn_forward_shape hm.2.1
    (fun r hr => by
      obtain ⟨r0, _, rfl⟩ := List.mem_map.mp hr
      exact length_linear_apply _ hm.1) h1
  have hb2 : t = false ∨ 2 ≤ ((b1.map reluVec).map m.fc2.apply).length := by
    rcases hb with hb | hb
    · exact Or.inl hb
    · refine Or.inr ?_
      simp only [List.length_map]
      rw [hsh1.1]
      simpa [helen] using hb
  obtain ⟨b2, bn2a, h2⟩ := bn_forward_some m.bn2 sq hb2
  have hsh2 := bn_forward_shape hm.2.2.2.1
    (fun r hr => by
      obtain ⟨r0, _, rfl⟩ := List.mem_map.mp hr
      exact length_linear_apply _ hm.2.2.1) h2
  refine ⟨_, _, normEnc_forward_eq he h1 h2, ?_, ?_⟩
  · simp only [List.length_map]
    rw [hsh2.1]
    simp only [List.length_map]
    rw [hsh1.1]
    simp [helen]
  · intro r hr
    obtain ⟨r0, _, rfl⟩ := List.mem_map.mp hr
    exact length_linear_apply _ hm.2.2.2.2

theorem plainDec_shape {m : InsideAgent.InsideAgentForAction} {latent : Nat}
    (hm : m.wf latent) (x : List (List ℚ)) :
    (m.forward x).length = x.length ∧
      ∀ p ∈ m.forward x, p.length = m.n_digits ∧
        ∀ q ∈ p, q.length = m.n_states_per_digit := by
  refine ⟨by simp [InsideAgent.InsideAgentForAction.forward], ?_⟩
  intro p hp
  obtain ⟨row, _, rfl⟩ := List.mem_map.mp hp
  refine ⟨by simp, ?_⟩
  intro q hq
  obtain ⟨i, hi, rfl⟩ := List.mem_map.mp hq
  have hi2 : i < m.fc4.length := by
    rw [hm.2.2.2.1]
    exact List.mem_range.mp hi
  exact length_linear_apply _ (hm.2.2.2.2.2 _ (getD_mem_of_lt hi2 dummyLinear))

theorem normDec_trunk_eq {m : SupervisedWire.InsideAgentForAction}
    {sq : ℚ → ℚ} {t : Bool} {x b1 : List (List ℚ)}
    {bn1a : SupervisedWire.BatchNorm1d}
    (h1 : m.bn1.forward sq t (x.map m.fc1.apply) = some (b1, bn1a))
    {b2 : List (List ℚ)} {bn2a : SupervisedWire.BatchNorm1d}
    (h2 : m.bn2.forward sq t ((b1.map reluVec).map m.fc2.apply) = some (b2, bn2a)) :
    m.trunk sq t x = some (b2.map reluVec, bn1a, bn2a) := by
  unfold SupervisedWire.InsideAgentForAction.trunk
  rw [List.map_map] at h2
  simp [h1, h2]

theorem normDec_forward_eq {m : SupervisedWire.InsideAgentForAction}
    {sq : ℚ → ℚ} {t : Bool} {x lat : List (List ℚ)}
    {bn1a bn2a : SupervisedWire.BatchNorm1d}
    (h : m.trunk sq t x = some (lat, bn1a, bn2a)) :
    m.forward sq t x
      = some (lat.map fun r => splitRow m.n_digits (m.fc3.apply r),
        ⟨m.n_digits, m.n_states_per_digit, m.vocab_size,
         m.fc1, bn1a, m.fc2, bn2a, m.fc3⟩) := by
  unfold SupervisedWire.InsideAgentForAction.forward
  simp [h]

theorem normDec_trunk_some {m : SupervisedWire.InsideAgentForAction} {latent : Nat}
    {sq : ℚ → ℚ} {t : Bool} {x : List (List ℚ)} (hm : m.wf latent)
    (hb : t = false ∨ 2 ≤ x.length) :
    ∃ lat bn1a bn2a, m.trunk sq t x = some (lat, bn1a, bn2a) ∧
      lat.length = x.length ∧ ∀ r ∈ lat, r.length = latent := by
  have hb1 : t = false ∨ 2 ≤ (x.map m.fc1.apply).length := by
    simpa using hb
  obtain ⟨b1, bn1a, h1⟩ := bn_forward_some m.bn1 sq hb1
  have hsh1 := bn_forward_shape hm.2.1
    (fun r hr => by
      obtain ⟨r0, _, rfl⟩ := List.mem_map.mp hr
      exact length_linear_apply _ hm.1) h1
  have hb2 : t = false ∨ 2 ≤ ((b1.map reluVec).map m.fc2.apply).length := by
    rcases hb with hb | hb
    · exact Or.inl hb
    · refine Or.inr ?_
      simp only [List.length_map]
      rw [hsh1.1]
      simpa using hb
  obtain ⟨b2, bn2a, h2⟩ := bn_forward_some m.bn2 sq hb2
  have hsh2 := bn_forward_shape hm.2.2.2.1
    (fun r hr => by
      obtain ⟨r0, _, rfl⟩ := List.mem_map.mp hr
      exact length_linear_apply _ hm.2.2.1) h2
  refine ⟨_, _, _, normDec_trunk_eq h1 h2, ?_, ?_⟩
  · simp only [List.length_map]
    rw [hsh2.1]
    simp only [List.length_map]
    rw [hsh1.1]
    simp
  · intro r hr
    obtain ⟨r0, hr0, rfl⟩ := List.mem_map.mp hr
    rw [length_reluVec]
    exact hsh2.2 r0 hr0

theorem normDec_shape {m : SupervisedWire.InsideAgentForAction} {latent : Nat}
    {sq : ℚ → ℚ} {t : Bool} {x : List (List ℚ)} (hm : m.wf latent)
    (hnd : 0 < m.n_digits) (hb : t = false ∨ 2 ≤ x.length) :
    ∃ out m2, m.forward sq t x = some (out, m2) ∧ out.length = x.length ∧
      ∀ p ∈ out, p.length = m.n_digits ∧
        ∀ q ∈ p, q.length = m.n_states_per_digit := by
  obtain ⟨lat, bn1a, bn2a, htr, hlen, _⟩ := normDec_trunk_some hm hb
  refine ⟨_, _, normDec_forward_eq htr, by simp [hlen], ?_⟩
  intro p hp
  obtain ⟨r, _, rfl⟩ := List.mem_map.mp hp
  refine ⟨splitRow_length _ _, ?_⟩
  intro q hq
  have hflen : (m.fc3.apply r).length = m.n_digits * m.n_states_per_digit := by
    rw [length_linear_apply _ hm.2.2.2.2, Nat.mul_comm]
  rw [splitRow] at hq
  obtain ⟨i, hi, rfl⟩ := List.mem_map.mp hq
  have hi2 : i < m.n_digits := List.mem_range.mp hi
  have hc : (m.fc3.apply r).length / m.n_digits = m.n_states_per_digit := by
    rw [hflen, Nat.mul_div_cancel_left _ hnd]
  rw [hc, List.length_take, List.length_drop, hflen]
  have h2 : (i + 1) * m.n_states_per_digit
      = i * m.n_states_per_digit + m.n_states_per_digit := Nat.succ_mul _ _
  have h3 : (i + 1) * m.n_states_per_digit
      ≤ m.n_digits * m.n_states_per_digit := Nat.mul_le_mul_right _ hi2
  omega

theorem plainEnc_row {m : InsideAgent.InsideAgentForInitState}
    {state : List (List ℤ)} {o : List (List ℚ)}
    (h : m.forward state = some o) (b : Nat) :
    o[b]? = (state[b]?.bind (encodeRow m.n_states_per_digit)).map fun row =>
      m.fc3.apply (reluVec (m.fc2.apply (reluVec (m.fc1.apply row)))) := by
  unfold InsideAgent.InsideAgentForInitState.forward at h
  cases he : encodeBatch m.n_states_per_digit state with
  | none => rw [he] at h; simp at h
  | some e =>
    rw [he] at h
    simp only [Option.map_some', Option.some.injEq] at h
    subst h
    rw [List.getElem?_map, mapOpt_getElem? he b]

theorem normEnc_eval_state_fixed {m : SupervisedWire.InsideAgentForInitState}
    {sq : ℚ → ℚ} {state : List (List ℤ)} {out : List (List ℚ)}
    {m2 : SupervisedWire.InsideAgentForInitState}
    (h : m.forward sq false state = some (out, m2)) : m2 = m := by
  unfold SupervisedWire.InsideAgentForInitState.forward at h
  cases he : encodeBatch m.n_states_per_digit state with
  | none => rw [he] at h; simp at h
  | some e =>
    rw [he] at h
    simp only [Option.bind_eq_bind, Option.some_bind] at h
    rw [bn_forward_eval] at h
    simp only [Option.some_bind] at h
    rw [bn_forward_eval] at h
    simp only [Option.some_bind, Option.some.injEq, Prod.mk.injEq] at h
    obtain ⟨_, hm2⟩ := h
    cases m
    simp_all

theorem normDec_eval_state_fixed {m : SupervisedWire.InsideAgentForAction}
    {sq : ℚ → ℚ} {x : List (List ℚ)} {out : List (List (List ℚ))}
    {m2 : SupervisedWire.InsideAgentForAction}
    (h : m.forward sq false x = some (out, m2)) : m2 = m := by
  have htr : m.trunk sq false x
      = some ((((x.map m.fc1.apply).map (m.bn1.evalRow sq)).map reluVec).map
          m.fc2.apply |>.map (m.bn2.evalRow sq) |>.map reluVec, m.bn1, m.bn2) := by
    apply normDec_trunk_eq
    · exact bn_forward_eval m.bn1 sq (x.map m.fc1.apply)
    · exact bn_forward_eval m.bn2 sq _
  rw [normDec_forward_eq htr] at h
  simp only [Option.some.injEq, Prod.mk.injEq] at h
  obtain ⟨_, hm2⟩ := h
  cases m
  simp_all

theorem normEnc_train_singleton_none {m : SupervisedWire.InsideAgentForInitState}
    {sq : ℚ → ℚ} {v : ℤ} (h0 : 0 ≤ v) (h1 : v < (m.n_states_per_digit : ℤ)) :
    m.forward sq true [[v]] = none := by
  obtain ⟨e, he, _⟩ := encodeBatch_spec (s := m.n_states_per_digit) (t := [[v]])
    (by
      intro row hrow u hu
      simp only [List.mem_singleton] at hrow
      subst hrow
      simp only [List.mem_singleton] at hu
      subst hu
      exact ⟨h0, h1⟩)
  unfold SupervisedWire.InsideAgentForInitState.forward
  rw [he]
  simp only [Option.bind_eq_bind, Option.some_bind]
  rw [bn_forward_train_small (by rw [List.length_map, mapOpt_length he]; simp)]
  rfl

theorem normDec_train_singleton_none {m : SupervisedWire.InsideAgentForAction}
    {sq : ℚ → ℚ} (x0 : List ℚ) : m.forward sq true [x0] = none := by
  unfold SupervisedWire.InsideAgentForAction.forward
    SupervisedWire.InsideAgentForAction.trunk
  rw [bn_forward_train_small (by simp)]
  rfl

/-! The claims. -/

/-- Claim C1: for every valid StateEncoder input batch (every digit value in
`[0, n_states_per_digit)`), the encoding step (shared by both variants)
succeeds and one-hot-encodes each digit independently with width
`n_states_per_digit`, concatenating the blocks in digit order into one flat
row per batch element: entry `i * n_states_per_digit + j` of encoded row `b`
is 1 exactly when digit `i` of input row `b` has value `j`, and 0 otherwise,
and the encoded row has width `n_digits * n_states_per_digit`. -/
theorem C1_encoding_is_onehot_concat {s : Nat} {batch : List (List ℤ)}
    (h : ∀ row ∈ batch, ∀ v ∈ row, 0 ≤ v ∧ v < (s : ℤ)) :
    ∃ e, encodeBatch s batch = some e ∧ e.length = batch.length ∧
      ∀ b < batch.length,
        (e.getD b []).length = (batch.getD b []).length * s ∧
        ∀ i < (batch.getD b []).length, ∀ j < s,
          (e.getD b []).getD (i * s + j) 0
            = if (batch.getD b []).getD i 0 = (j : ℤ) then 1 else 0 :=
  encodeBatch_spec h

/-- Witness for C1 at the spec's test vector: `n_states_per_digit = 3`,
input row `[1, 2]`, which must encode to `[0, 1, 0, 0, 0, 1]`. -/
theorem C1_encoding_is_onehot_concat_witness :
    (∃ e, encodeBatch 3 [[(1 : ℤ), 2]] = some e ∧ e.length = [[(1 : ℤ), 2]].length ∧
      ∀ b < [[(1 : ℤ), 2]].length,
        (e.getD b []).length = ([[(1 : ℤ), 2]].getD b []).length * 3 ∧
        ∀ i < ([[(1 : ℤ), 2]].getD b []).length, ∀ j < 3,
          (e.getD b []).getD (i * 3 + j) 0
            = if ([[(1 : ℤ), 2]].getD b []).getD i 0 = (j : ℤ) then 1 else 0)
    ∧ encodeBatch 3 [[(1 : ℤ), 2]] = some [[0, 1, 0, 0, 0, 1]] :=
  ⟨C1_encoding_is_onehot_concat (by decide), by decide⟩

/-- Claim C2: for every valid input batch, the StateEncoder of each variant
completes and returns a batch of `vocab_size`-wide real score rows — shape
`(batch_size, vocab_size)` — with the normalized variant additionally
requiring, in training mode, a batch of at least two rows (the documented
batch-normalization constraint). -/
theorem C2_state_encoder_output_shape :
    (∀ (m : InsideAgent.InsideAgentForInitState) (latent : Nat)
        (state : List (List ℤ)), m.wf latent →
        (∀ row ∈ state, ∀ v ∈ row, 0 ≤ v ∧ v < (m.n_states_per_digit : ℤ)) →
        ∃ out, m.forward state = some out ∧ out.length = state.length ∧
          ∀ r ∈ out, r.length = m.vocab_size)
    ∧ (∀ (m : SupervisedWire.InsideAgentForInitState) (latent : Nat) (sq : ℚ → ℚ)
        (t : Bool) (state : List (List ℤ)), m.wf latent →
        (∀ row ∈ state, ∀ v ∈ row, 0 ≤ v ∧ v < (m.n_states_per_digit : ℤ)) →
        (t = false ∨ 2 ≤ state.length) →
        ∃ out m2, m.forward sq t state = some (out, m2) ∧
          out.length = state.length ∧ ∀ r ∈ out, r.length = m.vocab_size) :=
  ⟨fun _ _ _ hm hs => plainEnc_shape hm hs,
   fun _ _ _ _ _ hm hs hb => normEnc_shape hm hs hb⟩

/-- Witness for C2: the concrete plain encoder `encP` on `[[1, 2]]` and the
concrete normalized encoder `encN` in evaluation mode on `[[0]]`. -/
theorem C2_state_encoder_output_shape_witness :
    (∃ out, encP.forward [[(1 : ℤ), 2]] = some out ∧
      out.length = 1 ∧ ∀ r ∈ out, r.length = 1)
    ∧ (∃ out m2, encN.forward sqId false [[(0 : ℤ)]] = some (out, m2) ∧
      out.length = 1 ∧ ∀ r ∈ out, r.length = 1) :=
  ⟨C2_state_encoder_output_shape.1 encP 1 [[(1 : ℤ), 2]] (by decide) (by decide),
   C2_state_encoder_output_shape.2 encN 1 sqId false [[(0 : ℤ)]] (by decide)
     (by decide) (Or.inl rfl)⟩

/-- Claim C3: for every input batch, the ActionDecoder of each variant
returns a real-valued tensor of shape
`(batch_size, n_digits, n_states_per_digit)`; the normalized variant again
requires either evaluation mode or a batch of at least two rows. -/
theorem C3_action_decoder_output_shape :
    (∀ (m : InsideAgent.InsideAgentForAction) (latent : Nat)
        (x : List (List ℚ)), m.wf latent →
        (m.forward x).length = x.length ∧
          ∀ p ∈ m.forward x, p.length = m.n_digits ∧
            ∀ q ∈ p, q.length = m.n_states_per_digit)
    ∧ (∀ (m : SupervisedWire.InsideAgentForAction) (latent : Nat) (sq : ℚ → ℚ)
        (t : Bool) (x : List (List ℚ)), m.wf latent → 0 < m.n_digits →
        (t = false ∨ 2 ≤ x.length) →
        ∃ out m2, m.forward sq t x = some (out, m2) ∧ out.length = x.length ∧
          ∀ p ∈ out, p.length = m.n_digits ∧
            ∀ q ∈ p, q.length = m.n_states_per_digit) :=
  ⟨fun _ _ x hm => plainDec_shape hm x,
   fun _ _ _ _ _ hm hnd hb => normDec_shape hm hnd hb⟩

/-- Witness for C3: the concrete plain decoder `decP` and normalized decoder
`decN` (both `n_digits = 2`, `n_states_per_digit = 3`) on the one-hot batch
`[[1]]`. -/
theorem C3_action_decoder_output_shape_witness :
    ((decP.forward [[(1 : ℚ)]]).length = 1 ∧
      ∀ p ∈ decP.forward [[(1 : ℚ)]], p.length = 2 ∧ ∀ q ∈ p, q.length = 3)
    ∧ (∃ out m2, decN.forward sqId false [[(1 : ℚ)]] = some (out, m2) ∧
      out.length = 1 ∧ ∀ p ∈ out, p.length = 2 ∧ ∀ q ∈ p, q.length = 3) :=
  ⟨C3_action_decoder_output_shape.1 decP 2 [[(1 : ℚ)]] (by decide),
   C3_action_decoder_output_shape.2 decN 1 sqId false [[(1 : ℚ)]] (by decide)
     (by decide) (Or.inl rfl)⟩

/-- Claim C4: in the per-digit-head (plain) ActionDecoder, the heads are
independent: two modules that agree on the trunk (`fc1`, `fc2`) and on every
head except possibly digit `j`'s (`fc3[j]`, `fc4[j]`) produce identical
output slices for every digit `i ≠ j`, on every input and batch element. -/
theorem C4_per_digit_head_independence :
    ∀ (m m2 : InsideAgent.InsideAgentForAction) (j : Nat),
      m2.n_digits = m.n_digits → m2.fc1 = m.fc1 → m2.fc2 = m.fc2 →
      (∀ t, t ≠ j → m2.fc3.getD t dummyLinear = m.fc3.getD t dummyLinear) →
      (∀ t, t ≠ j → m2.fc4.getD t dummyLinear = m.fc4.getD t dummyLinear) →
      ∀ (x : List (List ℚ)) (b i : Nat), i < m.n_digits → i ≠ j →
        ((m2.forward x).getD b []).getD i []
          = ((m.forward x).getD b []).getD i [] := by
  intro m m2 j hnd h1 h2 h3 h4 x b i hi hij
  unfold InsideAgent.InsideAgentForAction.forward
  simp only [List.getD_eq_getElem?_getD, List.getElem?_map]
  cases hxb : x[b]? with
  | none => simp
  | some row =>
    simp only [Option.map_some', Option.getD_some, List.getElem?_map, hnd,
      List.getElem?_range hi]
    simp only [List.getD_eq_getElem?_getD] at h3 h4
    rw [h1, h2, h3 i hij, h4 i hij]

/-- Witness for C4: `decP` and `decPalt` differ exactly in digit 1's head
layers; their digit-0 output slices agree on the input `[[1]]`. -/
theorem C4_per_digit_head_independence_witness :
    ((decPalt.forward [[(1 : ℚ)]]).getD 0 []).getD 0 []
      = ((decP.forward [[(1 : ℚ)]]).getD 0 []).getD 0 [] :=
  C4_per_digit_head_independence decP decPalt 1 (by decide) (by decide) (by decide)
    (by
      intro t ht
      match t with
      | 0 => rfl
      | 1 => exact absurd rfl ht
      | n + 2 => rfl)
    (by
      intro t ht
      match t with
      | 0 => rfl
      | 1 => exact absurd rfl ht
      | n + 2 => rfl)
    [[(1 : ℚ)]] 0 0 (by decide) (by decide)

/-- Claim C5: in the batch-normalized ActionDecoder, the output is exactly the
single wide affine layer `fc3` applied to the trunk's latent, reshaped
row-major into per-digit score rows: `output[b][i][k]` is component
`i * n_states_per_digit + k` of `fc3`'s output on latent row `b`. -/
theorem C5_wide_head_rowmajor_reshape :
    ∀ (m : SupervisedWire.InsideAgentForAction) (latent : Nat) (sq : ℚ → ℚ)
      (t : Bool) (x lat : List (List ℚ)) (bn1a bn2a : SupervisedWire.BatchNorm1d),
      m.wf latent → m.trunk sq t x = some (lat, bn1a, bn2a) →
      ∃ out m2, m.forward sq t x = some (out, m2) ∧
        ∀ b i k, b < lat.length → i < m.n_digits → k < m.n_states_per_digit →
          ((out.getD b []).getD i []).getD k 0
            = (m.fc3.apply (lat.getD b [])).getD (i * m.n_states_per_digit + k) 0 := by
  intro m latent sq t x lat bn1a bn2a hm htr
  refine ⟨_, _, normDec_forward_eq htr, ?_⟩
  intro b i k hb hi hk
  have hout : (lat.map fun r => splitRow m.n_digits (m.fc3.apply r)).getD b []
      = splitRow m.n_digits (m.fc3.apply (lat.getD b [])) := by
    rw [List.getD_eq_getElem?_getD, List.getElem?_map,
      List.getElem?_eq_getElem hb]
    simp only [Option.map_some', Option.getD_some]
    rw [List.getD_eq_getElem?_getD, List.getElem?_eq_getElem hb]
    simp only [Option.getD_some]
  rw [hout]
  exact splitRow_getD
    (by rw [length_linear_apply _ hm.2.2.2.2, Nat.mul_comm]) hi hk

/-- Witness for C5: the concrete normalized decoder `decN` in evaluation mode
on `[[1]]`, whose trunk latent is `[[0]]`. -/
theorem C5_wide_head_rowmajor_reshape_witness :
    (decN.trunk sqId false [[(1 : ℚ)]] = some ([[0]], bnOne, bnOne))
    ∧ (∃ out m2, decN.forward sqId false [[(1 : ℚ)]] = some (out, m2) ∧
        ∀ b i k, b < 1 → i < 2 → k < 3 →
          ((out.getD b []).getD i []).getD k 0
            = (decN.fc3.apply (([[(0 : ℚ)]] : List (List ℚ)).getD b [])).getD
                (i * 3 + k) 0) :=
  ⟨by norm_num [SupervisedWire.InsideAgentForAction.trunk, decN, bnOne, zeroLinear,
      bn_forward_eval, SupervisedWire.BatchNorm1d.evalRow,
      SupervisedWire.BatchNorm1d.normalizeRow, Linear.apply, dot, reluVec, relu, sqId],
   C5_wide_head_rowmajor_reshape decN 1 sqId false [[(1 : ℚ)]] [[0]] bnOne bnOne
     (by decide)
     (by norm_num [SupervisedWire.InsideAgentForAction.trunk, decN, bnOne, zeroLinear,
        bn_forward_eval, SupervisedWire.BatchNorm1d.evalRow,
        SupervisedWire.BatchNorm1d.normalizeRow, Linear.apply, dot, reluVec, relu, sqId])⟩

/-- Claim C6 fails on the code: on an out-of-range digit value the encoding
step raises (modelled `none`); it does not silently produce the all-zero row
`[0, 0, 0]` the claim asserts.  Concrete counterexample: value 5 with
`n_states_per_digit = 3`. -/
theorem C6_counterexample :
    encodeBatch 3 [[(5 : ℤ)]] = none
    ∧ encodeBatch 3 [[(5 : ℤ)]] ≠ some [[0, 0, 0]]
    ∧ encP.forward [[(5 : ℤ), 0]] = none :=
  ⟨by decide, by decide, by decide⟩

/-- Claim C6 (amended): for every StateEncoder input batch containing a digit
value outside `[0, n_states_per_digit)`, the one-hot encoding step fails fast
(`F.one_hot` raises, modelled `none`) — and so does the whole forward pass of
either variant — rather than silently producing an all-zero block for that
digit. -/
theorem C6_out_of_range_fails_fast :
    ∀ (s : Nat) (batch : List (List ℤ)) (row : List ℤ) (v : ℤ),
      row ∈ batch → v ∈ row → ¬(0 ≤ v ∧ v < (s : ℤ)) →
      encodeBatch s batch = none
      ∧ (∀ (m : InsideAgent.InsideAgentForInitState),
          m.n_states_per_digit = s → m.forward batch = none)
      ∧ (∀ (m : SupervisedWire.InsideAgentForInitState) (sq : ℚ → ℚ) (t : Bool),
          m.n_states_per_digit = s → m.forward sq t batch = none) := by
  intro s batch row v hrow hv hbad
  have hnone : encodeBatch s batch = none := encodeBatch_invalid hrow hv hbad
  refine ⟨hnone, ?_, ?_⟩
  · intro m hs
    unfold InsideAgent.InsideAgentForInitState.forward
    rw [hs, hnone]
    rfl
  · intro m sq t hs
    unfold SupervisedWire.InsideAgentForInitState.forward
    rw [hs, hnone]
    rfl

/-- Witness for the amended C6 at the counterexample input. -/
theorem C6_out_of_range_fails_fast_witness :
    encodeBatch 3 [[(5 : ℤ)]] = none
    ∧ (∀ (m : InsideAgent.InsideAgentForInitState),
        m.n_states_per_digit = 3 → m.forward [[(5 : ℤ)]] = none)
    ∧ (∀ (m : SupervisedWire.InsideAgentForInitState) (sq : ℚ → ℚ) (t : Bool),
        m.n_states_per_digit = 3 → m.forward sq t [[(5 : ℤ)]] = none) :=
  C6_out_of_range_fails_fast 3 [[(5 : ℤ)]] [(5 : ℤ)] 5 (by decide) (by decide)
    (by decide)

theorem getElem?_eq_some_getD {l : List α} {b : Nat} (h : b < l.length) (d : α) :
    l[b]? = some (l.getD b d) := by
  rw [List.getD_eq_getElem?_getD, List.getElem?_eq_getElem h]
  rfl

/-- Claim C7: an evaluation-mode (inference) forward pass mutates no module
state: the batch-normalized modules — the only ones holding running
statistics — are returned unchanged by `forward`; the plain modules carry no
mutable buffers at all and their `forward` is a pure function by
construction. -/
theorem C7_inference_no_state_mutation :
    (∀ (m : SupervisedWire.InsideAgentForInitState) (sq : ℚ → ℚ)
        (state : List (List ℤ)),
        (m.forward sq false state).map Prod.snd
          = (m.forward sq false state).map fun _ => m)
    ∧ (∀ (m : SupervisedWire.InsideAgentForAction) (sq : ℚ → ℚ)
        (x : List (List ℚ)),
        (m.forward sq false x).map Prod.snd
          = (m.forward sq false x).map fun _ => m) := by
  constructor
  · intro m sq state
    cases h : m.forward sq false state with
    | none => rfl
    | some p =>
      have h2 : m.forward sq false state = some (p.1, p.2) := by rw [h]
      simp [normEnc_eval_state_fixed h2]
  · intro m sq x
    cases h : m.forward sq false x with
    | none => rfl
    | some p =>
      have h2 : m.forward sq false x = some (p.1, p.2) := by rw [h]
      simp [normDec_eval_state_fixed h2]

/-- Claim C8: forward passes are deterministic.  The plain modules are pure
functions of (parameters, input); for the normalized modules in evaluation
mode, a second forward call on the module returned by a first call, with the
same input, returns the same output and the same module. -/
theorem C8_forward_deterministic :
    (∀ (m : InsideAgent.InsideAgentForInitState) (state : List (List ℤ)),
        m.forward state = m.forward state)
    ∧ (∀ (m : InsideAgent.InsideAgentForAction) (x : List (List ℚ)),
        m.forward x = m.forward x)
    ∧ (∀ (m : SupervisedWire.InsideAgentForInitState) (sq : ℚ → ℚ)
        (state : List (List ℤ)) (out1 out2 : List (List ℚ))
        (m1 m2 : SupervisedWire.InsideAgentForInitState),
        m.forward sq false state = some (out1, m1) →
        m1.forward sq false state = some (out2, m2) →
        out2 = out1 ∧ m2 = m1)
    ∧ (∀ (m : SupervisedWire.InsideAgentForAction) (sq : ℚ → ℚ)
        (x : List (List ℚ)) (out1 out2 : List (List (List ℚ)))
        (m1 m2 : SupervisedWire.InsideAgentForAction),
        m.forward sq false x = some (out1, m1) →
        m1.forward sq false x = some (out2, m2) →
        out2 = out1 ∧ m2 = m1) := by
  refine ⟨fun _ _ => rfl, fun _ _ => rfl, ?_, ?_⟩
  · intro m sq state out1 out2 m1 m2 hf1 hf2
    have e1 : m1 = m := normEnc_eval_state_fixed hf1
    subst e1
    rw [hf1] at hf2
    simp only [Option.some.injEq, Prod.mk.injEq] at hf2
    exact ⟨hf2.1.symm, hf2.2.symm⟩
  · intro m sq x out1 out2 m1 m2 hf1 hf2
    have e1 : m1 = m := normDec_eval_state_fixed hf1
    subst e1
    rw [hf1] at hf2
    simp only [Option.some.injEq, Prod.mk.injEq] at hf2
    exact ⟨hf2.1.symm, hf2.2.symm⟩

/-- Witness for C8: repeated evaluation-mode calls of the concrete normalized
modules `encN` and `decN` on fixed inputs. -/
theorem C8_forward_deterministic_witness :
    (encN.forward sqId false [[(0 : ℤ)]] = some ([[0]], encN))
    ∧ (decN.forward sqId false [[(1 : ℚ)]]
        = some ([[[0, 0, 0], [0, 0, 0]]], decN))
    ∧ (([[0]] : List (List ℚ)) = [[0]] ∧ encN = encN)
    ∧ (([[[0, 0, 0], [0, 0, 0]]] : List (List (List ℚ)))
        = [[[0, 0, 0], [0, 0, 0]]] ∧ decN = decN) := by
  have h1 : encN.forward sqId false [[(0 : ℤ)]] = some ([[0]], encN) := by
    norm_num [SupervisedWire.InsideAgentForInitState.forward, encodeBatch, encodeRow,
      mapOpt, one_hot, (by decide : List.range 2 = [0, 1]), encN, zeroLinear, bnOne,
      bn_forward_eval, SupervisedWire.BatchNorm1d.evalRow,
      SupervisedWire.BatchNorm1d.normalizeRow, Linear.apply, dot, reluVec, relu, sqId]
  have h2 : decN.forward sqId false [[(1 : ℚ)]]
      = some ([[[0, 0, 0], [0, 0, 0]]], decN) := by
    norm_num [SupervisedWire.InsideAgentForAction.forward,
      SupervisedWire.InsideAgentForAction.trunk, splitRow,
      (by decide : List.range 2 = [0, 1]), decN, zeroLinear, bnOne,
      bn_forward_eval, SupervisedWire.BatchNorm1d.evalRow,
      SupervisedWire.BatchNorm1d.normalizeRow, Linear.apply, dot, reluVec, relu, sqId,
      List.replicate]
  exact ⟨h1, h2,
    C8_forward_deterministic.2.2.1 encN sqId [[(0 : ℤ)]] [[0]] [[0]] encN encN h1 h1,
    C8_forward_deterministic.2.2.2 decN sqId [[(1 : ℚ)]] _ _ _ _ h2 h2⟩

/-- Claim C9: at the boundary configuration `n_digits = 1`, `vocab_size = 1`,
batch size 1 with valid values, every forward pass completes: the plain
modules and the evaluation-mode normalized modules succeed with the expected
shapes, while the normalized modules in training mode raise on the
single-element batch — exactly the documented batch-normalization
constraint. -/
theorem C9_boundary_minimal_config :
    (∀ (m : InsideAgent.InsideAgentForInitState) (latent : Nat) (v : ℤ),
        m.wf latent → m.vocab_size = 1 →
        0 ≤ v → v < (m.n_states_per_digit : ℤ) →
        ∃ out, m.forward [[v]] = some out ∧ out.length = 1 ∧
          ∀ r ∈ out, r.length = 1)
    ∧ (∀ (m : InsideAgent.InsideAgentForAction) (latent : Nat) (x0 : List ℚ),
        m.wf latent → m.n_digits = 1 →
        (m.forward [x0]).length = 1 ∧
          ∀ p ∈ m.forward [x0], p.length = 1 ∧
            ∀ q ∈ p, q.length = m.n_states_per_digit)
    ∧ (∀ (m : SupervisedWire.InsideAgentForInitState) (latent : Nat)
        (sq : ℚ → ℚ) (v : ℤ),
        m.wf latent → m.vocab_size = 1 →
        0 ≤ v → v < (m.n_states_per_digit : ℤ) →
        ∃ out m2, m.forward sq false [[v]] = some (out, m2) ∧ out.length = 1 ∧
          ∀ r ∈ out, r.length = 1)
    ∧ (∀ (m : SupervisedWire.InsideAgentForAction) (latent : Nat)
        (sq : ℚ → ℚ) (x0 : List ℚ),
        m.wf latent → m.n_digits = 1 →
        ∃ out m2, m.forward sq false [x0] = some (out, m2) ∧ out.length = 1 ∧
          ∀ p ∈ out, p.length = 1 ∧ ∀ q ∈ p, q.length = m.n_states_per_digit)
    ∧ (∀ (m : SupervisedWire.InsideAgentForInitState) (sq : ℚ → ℚ) (v : ℤ),
        0 ≤ v → v < (m.n_states_per_digit : ℤ) →
        m.forward sq true [[v]] = none)
    ∧ (∀ (m : SupervisedWire.InsideAgentForAction) (sq : ℚ → ℚ) (x0 : List ℚ),
        m.forward sq true [x0] = none) := by
  refine ⟨?_, ?_, ?_, ?_,
    fun m sq v h0 h1 => normEnc_train_singleton_none h0 h1,
    fun m sq x0 => normDec_train_singleton_none x0⟩
  · intro m latent v hm hvocab h0 h1
    have hval : ∀ row ∈ [[v]], ∀ u ∈ row, 0 ≤ u ∧ u < (m.n_states_per_digit : ℤ) := by
      intro row hrow u hu
      simp only [List.mem_singleton] at hrow
      subst hrow
      simp only [List.mem_singleton] at hu
      subst hu
      exact ⟨h0, h1⟩
    obtain ⟨out, hf, hlen, hrows⟩ := plainEnc_shape hm hval
    exact ⟨out, hf, by simpa using hlen, fun r hr => by rw [hrows r hr, hvocab]⟩
  · intro m latent x0 hm hnd
    obtain ⟨hlen, hrows⟩ := plainDec_shape hm [x0]
    exact ⟨by simpa using hlen,
      fun p hp => ⟨by rw [(hrows p hp).1, hnd], (hrows p hp).2⟩⟩
  · intro m latent sq v hm hvocab h0 h1
    have hval : ∀ row ∈ [[v]], ∀ u ∈ row, 0 ≤ u ∧ u < (m.n_states_per_digit : ℤ) := by
      intro row hrow u hu
      simp only [List.mem_singleton] at hrow
      subst hrow
      simp only [List.mem_singleton] at hu
      subst hu
      exact ⟨h0, h1⟩
    obtain ⟨out, m2, hf, hlen, hrows⟩ := normEnc_shape hm hval (Or.inl rfl)
    exact ⟨out, m2, hf, by simpa using hlen, fun r hr => by rw [hrows r hr, hvocab]⟩
  · intro m latent sq x0 hm hnd
    obtain ⟨out, m2, hf, hlen, hrows⟩ :=
      normDec_shape hm (by rw [hnd]; exact Nat.one_pos) (Or.inl rfl)
    exact ⟨out, m2, hf, by simpa using hlen,
      fun p hp => ⟨by rw [(hrows p hp).1, hnd], (hrows p hp).2⟩⟩

/-- Witness for C9: the four concrete boundary modules `encP1`, `decP1`,
`encN1`, `decN1` on a batch of one valid element, plus the training-mode
failures of the normalized pair on the same single-element batch. -/
theorem C9_boundary_minimal_config_witness :
    (∃ out, encP1.forward [[(0 : ℤ)]] = some out ∧ out.length = 1 ∧
      ∀ r ∈ out, r.length = 1)
    ∧ ((decP1.forward [[(0 : ℚ)]]).length = 1 ∧
      ∀ p ∈ decP1.forward [[(0 : ℚ)]], p.length = 1 ∧ ∀ q ∈ p, q.length = 1)
    ∧ (∃ out m2, encN1.forward sqId false [[(0 : ℤ)]] = some (out, m2) ∧
      out.length = 1 ∧ ∀ r ∈ out, r.length = 1)
    ∧ (∃ out m2, decN1.forward sqId false [[(0 : ℚ)]] = some (out, m2) ∧
      out.length = 1 ∧ ∀ p ∈ out, p.length = 1 ∧ ∀ q ∈ p, q.length = 1)
    ∧ encN1.forward sqId true [[(0 : ℤ)]] = none
    ∧ decN1.forward sqId true [[(0 : ℚ)]] = none :=
  ⟨C9_boundary_minimal_config.1 encP1 1 0 (by decide) (by decide) (by decide)
      (by decide),
   C9_boundary_minimal_config.2.1 decP1 2 [(0 : ℚ)] (by decide) (by decide),
   C9_boundary_minimal_config.2.2.1 encN1 1 sqId 0 (by decide) (by decide)
      (by decide) (by decide),
   C9_boundary_minimal_config.2.2.2.1 decN1 1 sqId [(0 : ℚ)] (by decide)
      (by decide),
   C9_boundary_minimal_config.2.2.2.2.1 encN1 sqId 0 (by decide) (by decide),
   C9_boundary_minimal_config.2.2.2.2.2 decN1 sqId [(0 : ℚ)]⟩

/-- Claim C10: in the plain variant, batch elements do not interact — for any
two input batches that agree on row `b`, the forward outputs agree on row
`b`, for both the encoder (whenever both passes succeed) and the decoder. -/
theorem C10_no_cross_sample_coupling :
    (∀ (m : InsideAgent.InsideAgentForInitState) (s1 s2 : List (List ℤ))
        (o1 o2 : List (List ℚ)) (b : Nat),
        m.forward s1 = some o1 → m.forward s2 = some o2 →
        b < s1.length → b < s2.length → s1.getD b [] = s2.getD b [] →
        o1.getD b [] = o2.getD b [])
    ∧ (∀ (m : InsideAgent.InsideAgentForAction) (x1 x2 : List (List ℚ))
        (b : Nat),
        b < x1.length → b < x2.length → x1.getD b [] = x2.getD b [] →
        (m.forward x1).getD b [] = (m.forward x2).getD b []) := by
  constructor
  · intro m s1 s2 o1 o2 b h1 h2 hb1 hb2 heq
    rw [List.getD_eq_getElem?_getD, List.getD_eq_getElem?_getD,
      plainEnc_row h1 b, plainEnc_row h2 b,
      getElem?_eq_some_getD hb1 [], getElem?_eq_some_getD hb2 [], heq]
  · intro m x1 x2 b hb1 hb2 heq
    unfold InsideAgent.InsideAgentForAction.forward
    rw [List.getD_eq_getElem?_getD, List.getD_eq_getElem?_getD,
      List.getElem?_map, List.getElem?_map,
      getElem?_eq_some_getD hb1 [], getElem?_eq_some_getD hb2 [], heq]

/-- Witness for C10: the concrete plain encoder and decoder on pairs of
batches of different sizes sharing row 0. -/
theorem C10_no_cross_sample_coupling_witness :
    (encP.forward [[(1 : ℤ), 2]] = some [[0]])
    ∧ (encP.forward [[(1 : ℤ), 2], [0, 0]] = some [[0], [0]])
    ∧ (([[0]] : List (List ℚ)).getD 0 []
        = ([[0], [0]] : List (List ℚ)).getD 0 [])
    ∧ ((decP.forward [[(1 : ℚ)]]).getD 0 []
        = (decP.forward [[(1 : ℚ)], [0]]).getD 0 []) := by
  have h1 : encP.forward [[(1 : ℤ), 2]] = some [[0]] := by
    norm_num [InsideAgent.InsideAgentForInitState.forward, encodeBatch, encodeRow,
      mapOpt, one_hot, (by decide : List.range 3 = [0, 1, 2]), encP, zeroLinear,
      Linear.apply, dot, reluVec, relu, List.replicate]
  have h2 : encP.forward [[(1 : ℤ), 2], [0, 0]] = some [[0], [0]] := by
    norm_num [InsideAgent.InsideAgentForInitState.forward, encodeBatch, encodeRow,
      mapOpt, one_hot, (by decide : List.range 3 = [0, 1, 2]), encP, zeroLinear,
      Linear.apply, dot, reluVec, relu, List.replicate]
  exact ⟨h1, h2,
    C10_no_cross_sample_coupling.1 encP [[(1 : ℤ), 2]] [[(1 : ℤ), 2], [0, 0]]
      [[0]] [[0], [0]] 0 h1 h2 (by decide) (by decide) (by decide),
    C10_no_cross_sample_coupling.2 decP [[(1 : ℚ)]] [[(1 : ℚ)], [0]] 0
      (by decide) (by decide) (by decide)⟩
